import Mathlib

/-
Verification of the expression-simplification engine of
miasm/expression/simplifications.py (class ExpressionSimplifier).

The engine is embedded shallowly and generically:
 - `Expr` is the abstract type of expression nodes (structural equality is
   Lean equality, as the Python nodes implement value equality and hashing);
 - `Kind` models the runtime class of a node (the dispatch key of the
   pass table `expr_simp_cb`); `kind : Expr → Kind` is `e.__class__`;
 - `Rule` models a simplification callback; callbacks are deduplicated by
   object identity in Python, modelled by decidable equality on `Rule`,
   and executed via `runRule : Rule → Expr → Expr` (the spec requires rule
   callbacks to be pure functions of the node);
 - `canonize : Expr → Expr` models `Expr.canonize` (defined in
   miasm/expression/expression.py, which is not part of these sources);
 - `visit` models `Expr.visit` (same external file), kept abstract for the
   generic theorems and instantiated from the spec for concrete models.

The mutable engine state during simplification is `SimpSt`: the memoization
set `simplified_exprs` (here `cache`), plus two ghost counters that count
every rule-callback invocation and every canonize call, so that claims of
the form "no rule callback is invoked" are visible in the state.
Since the Python fixpoint loop need not terminate for arbitrary rule sets,
the loop is embedded with a fuel parameter; `none` means the fuel was
exhausted before the loop exited.
-/

namespace MiasmSimp

/-- Mutable state of an `ExpressionSimplifier` during `expr_simp`:
the memoization set `self.simplified_exprs` plus ghost instrumentation
counting rule-callback invocations and canonize calls. -/
structure SimpSt (Expr : Type) where
  cache : List Expr
  ruleCalls : Nat
  canonCalls : Nat
deriving DecidableEq, Repr

variable {Expr Kind Rule : Type} [DecidableEq Expr] [DecidableEq Kind]

/-- `self.simplified_exprs.add(e)`: set insertion. -/
def addCache (e : Expr) (σ : SimpSt Expr) : SimpSt Expr :=
  if e ∈ σ.cache then σ else { σ with cache := e :: σ.cache }

/-- Ghost accounting for one loop iteration of `expr_simp`: one canonize
call and `n` rule-callback invocations. -/
def bumpSt (n : Nat) (σ : SimpSt Expr) : SimpSt Expr :=
  { σ with ruleCalls := σ.ruleCalls + n, canonCalls := σ.canonCalls + 1 }

variable (kind : Expr → Kind) (runRule : Rule → Expr → Expr)

/-- Rule-list fold of `ExpressionSimplifier.apply_simp`: apply each callback
in order, threading the current node; after each invocation, if the class of
the result differs from the class `cls` the lookup was made under, stop
(`break` in the source). The second component counts invoked callbacks. -/
def apply_goC (cls : Kind) : List Rule → Expr → Expr × Nat
  | [], e => (e, 0)
  | r :: rs, e =>
    let e2 := runRule r e
    if kind e2 = cls then
      let p := apply_goC cls rs e2
      (p.1, p.2 + 1)
    else (e2, 1)

variable (cb : Kind → List Rule)

/-- `ExpressionSimplifier.apply_simp` with the invocation count:
look up the rule list registered for the node's class
(`self.expr_simp_cb.get(cls, [])`) and fold it. -/
def apply_simpC (e : Expr) : Expr × Nat :=
  apply_goC kind runRule (kind e) (cb (kind e)) e

/-- `ExpressionSimplifier.apply_simp`, result only. -/
def apply_simp (e : Expr) : Expr := (apply_simpC kind runRule cb e).1

/-- Rule-list fold of `apply_simp` with the debug-logging branch of the
source made explicit: when `dbg` holds (`log_exprsimp` at debug level) and
a callback changed the node, the triple (rule, before, after) is emitted.
The trace entry of a class-changing callback is emitted before the break,
as in the source. -/
def apply_goD (dbg : Bool) (cls : Kind) : List Rule → Expr → Expr × List (Rule × Expr × Expr)
  | [], e => (e, [])
  | r :: rs, e =>
    let before := e
    let after := runRule r e
    let tr : List (Rule × Expr × Expr) :=
      if dbg ∧ before ≠ after then [(r, before, after)] else []
    if kind after = cls then
      let p := apply_goD dbg cls rs after
      (p.1, tr ++ p.2)
    else (after, tr)

/-- `ExpressionSimplifier.apply_simp` with its diagnostic trace. -/
def apply_simpD (dbg : Bool) (e : Expr) : Expr × List (Rule × Expr × Expr) :=
  apply_goD kind runRule dbg (kind e) (cb (kind e)) e

section FastUnify

variable [DecidableEq Rule]

/-- Modelled from the spec: `fast_unify` is imported from
miasm.expression.expression_helper, which is not among these sources.
Per the spec it reduces a sequence to eliminate duplicates while
preserving the relative order of first occurrence; `seen` is the set of
already-emitted items. -/
def fast_unify_aux (seen : List Rule) : List Rule → List Rule
  | [] => []
  | x :: xs =>
    if x ∈ seen then fast_unify_aux seen xs
    else x :: fast_unify_aux (x :: seen) xs

/-- Modelled from the spec: order-preserving unification (first occurrence
of each item is kept, later duplicates dropped). -/
def fast_unify (l : List Rule) : List Rule := fast_unify_aux [] l

theorem fast_unify_aux_congr (s1 s2 : List Rule) (h : ∀ x, x ∈ s1 ↔ x ∈ s2) :
    ∀ l, fast_unify_aux s1 l = fast_unify_aux s2 l := by
  intro l
  induction l generalizing s1 s2 with
  | nil => rfl
  | cons x xs ih =>
    simp only [fast_unify_aux]
    by_cases hx : x ∈ s1
    · rw [if_pos hx, if_pos ((h x).mp hx)]
      exact ih s1 s2 h
    · rw [if_neg hx, if_neg (fun hc => hx ((h x).mpr hc))]
      refine congrArg _ (ih _ _ ?_)
      intro y
      simp only [List.mem_cons]
      exact or_congr Iff.rfl (h y)

theorem fast_unify_aux_append (s : List Rule) (l1 l2 : List Rule) :
    fast_unify_aux s (l1 ++ l2) = fast_unify_aux s l1 ++ fast_unify_aux (l1 ++ s) l2 := by
  induction l1 generalizing s with
  | nil => simp [fast_unify_aux]
  | cons x xs ih =>
    simp only [List.cons_append, fast_unify_aux, List.append_eq]
    by_cases hx : x ∈ s
    · rw [if_pos hx, if_pos hx, ih s]
      refine congrArg _ (fast_unify_aux_congr _ _ ?_ l2)
      intro y
      simp only [List.mem_append, List.mem_cons]
      constructor
      · intro h1
        exact Or.inr h1
      · rintro (rfl | h1)
        · exact Or.inr hx
        · exact h1
    · rw [if_neg hx, if_neg hx, ih (x :: s), List.cons_append]
      refine congrArg _ (congrArg _ (fast_unify_aux_congr _ _ ?_ l2))
      intro y
      simp only [List.mem_append, List.mem_cons]
      tauto

theorem mem_fast_unify_aux (s l : List Rule) (x : Rule) :
    x ∈ fast_unify_aux s l ↔ x ∈ l ∧ x ∉ s := by
  induction l generalizing s with
  | nil => simp [fast_unify_aux]
  | cons y ys ih =>
    simp only [fast_unify_aux]
    by_cases hy : y ∈ s
    · rw [if_pos hy, ih]
      simp only [List.mem_cons]
      constructor
      · rintro ⟨hx, hxs⟩; exact ⟨Or.inr hx, hxs⟩
      · rintro ⟨rfl | hx, hxs⟩
        · exact absurd hy hxs
        · exact ⟨hx, hxs⟩
    · rw [if_neg hy]
      simp only [List.mem_cons, ih]
      constructor
      · rintro (rfl | ⟨hx, hxs⟩)
        · exact ⟨Or.inl rfl, hy⟩
        · refine ⟨Or.inr hx, fun hc => hxs (Or.inr hc)⟩
      · rintro ⟨rfl | hx, hxs⟩
        · exact Or.inl rfl
        · by_cases hxy : x = y
          · exact Or.inl hxy
          · exact Or.inr ⟨hx, fun hc => by
              rcases hc with h1 | h1
              · exact hxy h1
              · exact hxs h1⟩

theorem fast_unify_aux_nil_of_subset (s l : List Rule) (h : ∀ x ∈ l, x ∈ s) :
    fast_unify_aux s l = [] := by
  induction l with
  | nil => rfl
  | cons x xs ih =>
    simp only [fast_unify_aux, if_pos (h x (List.mem_cons_self x xs))]
    exact ih fun y hy => h y (List.mem_cons_of_mem _ hy)

theorem fast_unify_aux_sublist (s l : List Rule) : List.Sublist (fast_unify_aux s l) l := by
  induction l generalizing s with
  | nil => exact List.Sublist.refl _
  | cons x xs ih =>
    simp only [fast_unify_aux]
    by_cases hx : x ∈ s
    · rw [if_pos hx]
      exact List.Sublist.cons x (ih s)
    · rw [if_neg hx]
      exact List.Sublist.cons₂ x (ih (x :: s))

theorem fast_unify_aux_nodup (s l : List Rule) : (fast_unify_aux s l).Nodup := by
  induction l generalizing s with
  | nil => exact List.nodup_nil
  | cons x xs ih =>
    simp only [fast_unify_aux]
    by_cases hx : x ∈ s
    · rw [if_pos hx]; exact ih s
    · rw [if_neg hx]
      refine List.Nodup.cons ?_ (ih (x :: s))
      intro hc
      exact ((mem_fast_unify_aux _ _ _).mp hc).2 (List.mem_cons_self x s)

theorem fast_unify_aux_of_nodup (s l : List Rule) (hnd : l.Nodup)
    (hdisj : ∀ x ∈ l, x ∉ s) : fast_unify_aux s l = l := by
  induction l generalizing s with
  | nil => rfl
  | cons x xs ih =>
    simp only [fast_unify_aux, if_neg (hdisj x (List.mem_cons_self x xs))]
    refine congrArg _ (ih (x :: s) (List.Nodup.of_cons hnd) ?_)
    intro y hy hc
    rcases List.mem_cons.mp hc with rfl | h1
    · exact (List.nodup_cons.mp hnd).1 hy
    · exact hdisj y (List.mem_cons_of_mem _ hy) h1

theorem mem_fast_unify (l : List Rule) (x : Rule) : x ∈ fast_unify l ↔ x ∈ l := by
  rw [fast_unify, mem_fast_unify_aux]
  simp

theorem fast_unify_nodup (l : List Rule) : (fast_unify l).Nodup :=
  fast_unify_aux_nodup [] l

theorem fast_unify_sublist (l : List Rule) : List.Sublist (fast_unify l) l :=
  fast_unify_aux_sublist [] l

theorem fast_unify_of_nodup (l : List Rule) (h : l.Nodup) : fast_unify l = l :=
  fast_unify_aux_of_nodup [] l h (by simp)

/-- Keep-first-occurrence characterization: the head survives and every
later duplicate of it is dropped. -/
theorem fast_unify_cons (x : Rule) (l : List Rule) :
    fast_unify (x :: l) = x :: fast_unify (l.filter fun y => decide (y ≠ x)) := by
  have key : ∀ (l : List Rule) (s : List Rule) (x : Rule),
      fast_unify_aux (x :: s) l = fast_unify_aux s (l.filter fun y => decide (y ≠ x)) := by
    intro l
    induction l with
    | nil => intro s x; rfl
    | cons y ys ih =>
      intro s x
      by_cases hxy : y = x
      · subst hxy
        rw [List.filter_cons, if_neg (by simp)]
        simp only [fast_unify_aux]
        rw [if_pos (List.mem_cons_self y s)]
        exact ih s y
      · rw [List.filter_cons, if_pos (by simp [hxy])]
        simp only [fast_unify_aux]
        by_cases hy : y ∈ s
        · rw [if_pos (List.mem_cons_of_mem _ hy), if_pos hy]
          exact ih s x
        · rw [if_neg (by simp [hxy, hy]), if_neg hy]
          refine congrArg _ ?_
          calc fast_unify_aux (y :: x :: s) ys
              = fast_unify_aux (x :: y :: s) ys := by
                refine fast_unify_aux_congr _ _ ?_ ys
                intro z
                simp only [List.mem_cons]
                tauto
            _ = fast_unify_aux (y :: s) (ys.filter fun z => decide (z ≠ x)) := ih (y :: s) x
  show fast_unify_aux [] (x :: l) = _
  simp only [fast_unify_aux]
  rw [if_neg (List.not_mem_nil x)]
  exact congrArg _ (key l [] x)

/-- Absorption: appending items that already occur does not change the
unified list. -/
theorem fast_unify_append_absorb (m v : List Rule) (hnd : m.Nodup)
    (hsub : ∀ x ∈ v, x ∈ m) : fast_unify (m ++ v) = m := by
  rw [fast_unify, fast_unify_aux_append]
  rw [fast_unify_aux_of_nodup [] m hnd (by simp)]
  rw [fast_unify_aux_nil_of_subset _ _ (fun x hx => by
    simpa using hsub x hx)]
  simp

end FastUnify

variable (canonize : Expr → Expr)
variable (visit : (SimpSt Expr → Expr → Option (Expr × SimpSt Expr)) →
    (SimpSt Expr → Expr → Bool) → SimpSt Expr → Expr → Option (Expr × SimpSt Expr))

/-- The three state-passing procedures of `ExpressionSimplifier` at one fuel
level: `esimp` is `expr_simp`, `loop` is its while-loop, `wrap` is
`expr_simp_wrapper` (with the default callback). -/
structure SFuns (Expr : Type) where
  esimp : SimpSt Expr → Expr → Option (Expr × SimpSt Expr)
  loop : SimpSt Expr → Expr → Option (Expr × SimpSt Expr)
  wrap : SimpSt Expr → Expr → Option (Expr × SimpSt Expr)

/-- Fuel-indexed embedding of the mutually recursive procedures.  At fuel
`f + 1`:
`wrap σ e` is `expr_simp_wrapper`: return `e` on a cache hit, otherwise
`e.visit(self.expr_simp, lambda e: e not in self.simplified_exprs)`;
`loop σ e` is one iteration of the while-loop of `expr_simp`:
`e_new = self.apply_simp(expression.canonize())`, break when
`e_new == expression` (adding `e_new` to the cache, the statement after the
loop), otherwise `expression = self.expr_simp_wrapper(e_new)` followed by
`self.simplified_exprs.add(expression)` and the next iteration;
`esimp σ e` is `expr_simp`: return `e` on a cache hit, else run the loop.
`none` means the fuel bound was reached before the loop exited. -/
def simpFuns : Nat → SFuns Expr
  | 0 => ⟨fun _ _ => none, fun _ _ => none, fun _ _ => none⟩
  | f + 1 =>
    let prev := simpFuns f
    let wrap : SimpSt Expr → Expr → Option (Expr × SimpSt Expr) := fun σ e =>
      if e ∈ σ.cache then some (e, σ)
      else visit prev.esimp (fun σ2 e2 => decide (e2 ∉ σ2.cache)) σ e
    let loop : SimpSt Expr → Expr → Option (Expr × SimpSt Expr) := fun σ e =>
      let p := apply_simpC kind runRule cb (canonize e)
      let σs := bumpSt p.2 σ
      if p.1 = e then some (p.1, addCache p.1 σs)
      else
        match wrap σs p.1 with
        | none => none
        | some (w, σ1) => prev.loop (addCache w σ1) w
    ⟨fun σ e => if e ∈ σ.cache then some (e, σ) else loop σ e, loop, wrap⟩

/-- `ExpressionSimplifier.expr_simp` at fuel `fuel`. -/
def expr_simpF (fuel : Nat) : SimpSt Expr → Expr → Option (Expr × SimpSt Expr) :=
  (simpFuns kind runRule cb canonize visit fuel).esimp

/-- The while-loop of `expr_simp` at fuel `fuel`. -/
def simpLoopF (fuel : Nat) : SimpSt Expr → Expr → Option (Expr × SimpSt Expr) :=
  (simpFuns kind runRule cb canonize visit fuel).loop

/-- `ExpressionSimplifier.expr_simp_wrapper` (default callback) at fuel
`fuel`. -/
def wrapF (fuel : Nat) : SimpSt Expr → Expr → Option (Expr × SimpSt Expr) :=
  (simpFuns kind runRule cb canonize visit fuel).wrap

theorem expr_simpF_zero (σ : SimpSt Expr) (e : Expr) :
    expr_simpF kind runRule cb canonize visit 0 σ e = none := rfl

theorem simpLoopF_zero (σ : SimpSt Expr) (e : Expr) :
    simpLoopF kind runRule cb canonize visit 0 σ e = none := rfl

theorem expr_simpF_succ (f : Nat) (σ : SimpSt Expr) (e : Expr) :
    expr_simpF kind runRule cb canonize visit (f + 1) σ e =
      if e ∈ σ.cache then some (e, σ)
      else simpLoopF kind runRule cb canonize visit (f + 1) σ e := rfl

theorem simpLoopF_succ (f : Nat) (σ : SimpSt Expr) (e : Expr) :
    simpLoopF kind runRule cb canonize visit (f + 1) σ e =
      (if (apply_simpC kind runRule cb (canonize e)).1 = e then
        some ((apply_simpC kind runRule cb (canonize e)).1,
          addCache (apply_simpC kind runRule cb (canonize e)).1
            (bumpSt (apply_simpC kind runRule cb (canonize e)).2 σ))
      else
        match wrapF kind runRule cb canonize visit (f + 1)
            (bumpSt (apply_simpC kind runRule cb (canonize e)).2 σ)
            (apply_simpC kind runRule cb (canonize e)).1 with
        | none => none
        | some (w, σ1) =>
            simpLoopF kind runRule cb canonize visit f (addCache w σ1) w) := rfl

theorem wrapF_succ (f : Nat) (σ : SimpSt Expr) (e : Expr) :
    wrapF kind runRule cb canonize visit (f + 1) σ e =
      if e ∈ σ.cache then some (e, σ)
      else visit (expr_simpF kind runRule cb canonize visit f)
        (fun σ2 e2 => decide (e2 ∉ σ2.cache)) σ e := rfl

theorem mem_addCache (e : Expr) (σ : SimpSt Expr) : e ∈ (addCache e σ).cache := by
  unfold addCache
  by_cases h : e ∈ σ.cache
  · rwa [if_pos h]
  · rw [if_neg h]
    exact List.mem_cons_self e σ.cache

/-- Whenever the while-loop of `expr_simp` exits with result `r`, the final
statement `self.simplified_exprs.add(e_new)` has put `r` in the cache. -/
theorem simpLoopF_mem (f : Nat) :
    ∀ (σ : SimpSt Expr) (e r : Expr) (σ2 : SimpSt Expr),
      simpLoopF kind runRule cb canonize visit f σ e = some (r, σ2) →
      r ∈ σ2.cache := by
  induction f with
  | zero =>
    intro σ e r σ2 h
    exact absurd h (by simp [simpLoopF_zero])
  | succ f ih =>
    intro σ e r σ2 h
    rw [simpLoopF_succ] at h
    by_cases hb : (apply_simpC kind runRule cb (canonize e)).1 = e
    · rw [if_pos hb] at h
      simp only [Option.some.injEq, Prod.mk.injEq] at h
      obtain ⟨h1, h2⟩ := h
      subst h1 h2
      exact mem_addCache _ _
    · rw [if_neg hb] at h
      cases hw : wrapF kind runRule cb canonize visit (f + 1)
          (bumpSt (apply_simpC kind runRule cb (canonize e)).2 σ)
          (apply_simpC kind runRule cb (canonize e)).1 with
      | none => rw [hw] at h; exact absurd h (by simp)
      | some p =>
        rw [hw] at h
        exact ih _ _ _ _ h

/-- Whenever `expr_simp` returns `r`, `r` is in the memoization cache of the
resulting state (either it already was, or the loop recorded it). -/
theorem expr_simpF_mem (f : Nat) (σ : SimpSt Expr) (e r : Expr) (σ2 : SimpSt Expr)
    (h : expr_simpF kind runRule cb canonize visit f σ e = some (r, σ2)) :
    r ∈ σ2.cache := by
  cases f with
  | zero => exact absurd h (by simp [expr_simpF_zero])
  | succ f =>
    rw [expr_simpF_succ] at h
    by_cases hc : e ∈ σ.cache
    · rw [if_pos hc] at h
      simp only [Option.some.injEq, Prod.mk.injEq] at h
      obtain ⟨h1, h2⟩ := h
      subst h1 h2
      exact hc
    · rw [if_neg hc] at h
      exact simpLoopF_mem kind runRule cb canonize visit _ _ _ _ _ h

/-- C4: cache soundness.  If `expr_simp` returns `r` with final engine state
`σ2`, then `r` is recorded in the memoization cache of `σ2`, and running
`expr_simp` again on `r` in that state (any positive fuel) returns `r`
with the state unchanged: in particular the ghost counters of `σ2` are
untouched, so the second call invoked no rule callback and performed no
canonicalization — it is a pure cache hit. -/
theorem c4_cache_soundness (f g : Nat) (σ σ2 : SimpSt Expr) (n r : Expr)
    (h : expr_simpF kind runRule cb canonize visit f σ n = some (r, σ2)) :
    r ∈ σ2.cache ∧
      expr_simpF kind runRule cb canonize visit (g + 1) σ2 r = some (r, σ2) := by
  have hm := expr_simpF_mem kind runRule cb canonize visit f σ n r σ2 h
  exact ⟨hm, by rw [expr_simpF_succ, if_pos hm]⟩

/-- C7: idempotence.  If `expr_simp` returns `r` (state `σ2`), then a second
`expr_simp` on `r` with the engine in the resulting state returns exactly
`r` again: simplify(simplify(n)) == simplify(n) for a fixed enabled pass
table on the engine. -/
theorem c7_simplify_idempotent (f g : Nat) (σ σ2 : SimpSt Expr) (n r : Expr)
    (h : expr_simpF kind runRule cb canonize visit f σ n = some (r, σ2)) :
    expr_simpF kind runRule cb canonize visit (g + 1) σ2 r = some (r, σ2) := by
  have hm := expr_simpF_mem kind runRule cb canonize visit f σ n r σ2 h
  rw [expr_simpF_succ, if_pos hm]

/-- C1 (amended): for a node `x` not in the cache, the fixpoint loop exits
in its first iteration exactly when the rewrite result
`apply_simp(x.canonize())` equals `x` itself — the pre-canonicalization
node of the iteration — and then records and returns that result.
(The source compares `e_new == expression`, not `e_new` against
`expression.canonize()`.) -/
theorem c1_loop_exit_amended (σ : SimpSt Expr) (x r : Expr) (σ2 : SimpSt Expr)
    (hx : x ∉ σ.cache) :
    expr_simpF kind runRule cb canonize visit 1 σ x = some (r, σ2) ↔
      ((apply_simpC kind runRule cb (canonize x)).1 = x ∧ r = x ∧
        σ2 = addCache x (bumpSt (apply_simpC kind runRule cb (canonize x)).2 σ)) := by
  constructor
  · intro h
    rw [expr_simpF_succ, if_neg hx, simpLoopF_succ] at h
    by_cases hb : (apply_simpC kind runRule cb (canonize x)).1 = x
    · rw [if_pos hb] at h
      simp only [Option.some.injEq, Prod.mk.injEq] at h
      obtain ⟨h1, h2⟩ := h
      refine ⟨hb, ?_, ?_⟩
      · rw [← h1, hb]
      · rw [← h2, hb]
    · rw [if_neg hb] at h
      cases hw : wrapF kind runRule cb canonize visit 1
          (bumpSt (apply_simpC kind runRule cb (canonize x)).2 σ)
          (apply_simpC kind runRule cb (canonize x)).1 with
      | none => rw [hw] at h; exact absurd h (by simp)
      | some p =>
        rw [hw] at h
        exact absurd h (by simp [simpLoopF_zero])
  · rintro ⟨hb, rfl, rfl⟩
    rw [expr_simpF_succ, if_neg hx, simpLoopF_succ, if_pos hb, hb]

/-- C2 (amended): in an iteration of the fixpoint loop in which the rewrite
changed the node (`e_new != expression`), the engine recursively simplifies
the changed node through `expr_simp_wrapper`, records the POST-recursion
node `w` (the wrapper's result) in the memoization cache, and only then
loops back with `w`; the pre-recursion node `e_new` itself is not the node
recorded. -/
theorem c2_records_post_recursion_amended (f : Nat) (σ σ1 : SimpSt Expr) (x w : Expr)
    (hx : x ∉ σ.cache)
    (hne : (apply_simpC kind runRule cb (canonize x)).1 ≠ x)
    (hw : wrapF kind runRule cb canonize visit (f + 1)
        (bumpSt (apply_simpC kind runRule cb (canonize x)).2 σ)
        (apply_simpC kind runRule cb (canonize x)).1 = some (w, σ1)) :
    expr_simpF kind runRule cb canonize visit (f + 1) σ x =
      simpLoopF kind runRule cb canonize visit f (addCache w σ1) w := by
  rw [expr_simpF_succ, if_neg hx, simpLoopF_succ, if_neg hne, hw]

omit [DecidableEq Expr] in
/-- C3: `apply_simp` folds the rule list registered for the node's class in
registration order, threading each callback's output into the next
callback; a callback whose result has a different class stops the fold at
once (only that one callback charged, its result returned); an exhausted
list returns the accumulated node. -/
theorem c3_apply_simp_fold (cls : Kind) (r : Rule) (rs : List Rule) (e : Expr) :
    apply_goC kind runRule cls [] e = (e, 0) ∧
    (kind (runRule r e) = cls →
      apply_goC kind runRule cls (r :: rs) e =
        ((apply_goC kind runRule cls rs (runRule r e)).1,
          (apply_goC kind runRule cls rs (runRule r e)).2 + 1)) ∧
    (kind (runRule r e) ≠ cls →
      apply_goC kind runRule cls (r :: rs) e = (runRule r e, 1)) ∧
    apply_simpC kind runRule cb e = apply_goC kind runRule (kind e) (cb (kind e)) e := by
  refine ⟨rfl, ?_, ?_, rfl⟩
  · intro h
    simp only [apply_goC]
    rw [if_pos h]
  · intro h
    simp only [apply_goC]
    rw [if_neg h]

theorem apply_goD_fst (dbg : Bool) (cls : Kind) (rs : List Rule) (e : Expr) :
    (apply_goD kind runRule dbg cls rs e).1 = (apply_goC kind runRule cls rs e).1 := by
  induction rs generalizing e with
  | nil => rfl
  | cons r rs ih =>
    simp only [apply_goD, apply_goC]
    by_cases h : kind (runRule r e) = cls
    · rw [if_pos h, if_pos h]
      exact ih (runRule r e)
    · rw [if_neg h, if_neg h]

/-- C8: determinism.  With pointwise-equal pass tables the engine produces
identical results on identical inputs, and the diagnostic-tracing flag
(`log_exprsimp` at debug level) has no effect on the value computed by
`apply_simp` — tracing only accumulates the (rule, before, after) log. -/
theorem c8_determinism (cb1 cb2 : Kind → List Rule) (hcb : ∀ k, cb1 k = cb2 k)
    (dbg1 dbg2 : Bool) (e : Expr) (fuel : Nat) (σ : SimpSt Expr) (x : Expr) :
    (apply_simpD kind runRule cb1 dbg1 e).1 = (apply_simpD kind runRule cb2 dbg2 e).1 ∧
    (apply_simpD kind runRule cb1 dbg1 e).1 = apply_simp kind runRule cb1 e ∧
    expr_simpF kind runRule cb1 canonize visit fuel σ x =
      expr_simpF kind runRule cb2 canonize visit fuel σ x := by
  have hc : cb1 = cb2 := funext hcb
  subst hc
  refine ⟨?_, ?_, rfl⟩
  · unfold apply_simpD
    rw [apply_goD_fst, apply_goD_fst]
  · unfold apply_simpD apply_simp apply_simpC
    rw [apply_goD_fst]

section Engine

variable [DecidableEq Rule]

/-- An `ExpressionSimplifier` instance between simplification runs: the
pass table `self.expr_simp_cb` (a mapping from node class to the ordered
rule list, empty list when the class is not registered, matching
`.get(cls, [])`) and the memoization cache `self.simplified_exprs`. -/
structure Engine (Expr Kind Rule : Type) where
  expr_simp_cb : Kind → List Rule
  simplified_exprs : List Expr

/-- `ExpressionSimplifier.enable_passes`: first
`self.simplified_exprs.clear()`, then for each `(k, v)` of `passes`
(a dict, so its keys are pairwise distinct),
`self.expr_simp_cb[k] = fast_unify(self.expr_simp_cb.get(k, []) + v)`. -/
def enable_passes (eng : Engine Expr Kind Rule) (passes : List (Kind × List Rule)) :
    Engine Expr Kind Rule :=
  passes.foldl
    (fun acc kv =>
      { acc with
        expr_simp_cb := Function.update acc.expr_simp_cb kv.1
          (fast_unify (acc.expr_simp_cb kv.1 ++ kv.2)) })
    { eng with simplified_exprs := [] }

omit [DecidableEq Expr] in
theorem enable_passes_foldl_cache (passes : List (Kind × List Rule))
    (acc : Engine Expr Kind Rule) :
    (passes.foldl
      (fun acc kv =>
        { acc with
          expr_simp_cb := Function.update acc.expr_simp_cb kv.1
            (fast_unify (acc.expr_simp_cb kv.1 ++ kv.2)) })
      acc).simplified_exprs = acc.simplified_exprs := by
  induction passes generalizing acc with
  | nil => rfl
  | cons kv rest ih => exact ih _

omit [DecidableEq Expr] in
/-- C5: every call to `enable_passes`, whatever the argument (including an
empty or already-enabled pass table), leaves the engine's memoization cache
empty, so nothing simplified under the previous pass table can be a cache
hit afterwards. -/
theorem c5_enable_passes_clears_cache (eng : Engine Expr Kind Rule)
    (passes : List (Kind × List Rule)) :
    (enable_passes eng passes).simplified_exprs = [] := by
  unfold enable_passes
  rw [enable_passes_foldl_cache]

omit [DecidableEq Expr] in
theorem enable_passes_foldl_cb_notmem (passes : List (Kind × List Rule))
    (acc : Engine Expr Kind Rule) (k : Kind) (hk : k ∉ passes.map Prod.fst) :
    (passes.foldl
      (fun acc kv =>
        { acc with
          expr_simp_cb := Function.update acc.expr_simp_cb kv.1
            (fast_unify (acc.expr_simp_cb kv.1 ++ kv.2)) })
      acc).expr_simp_cb k = acc.expr_simp_cb k := by
  induction passes generalizing acc with
  | nil => rfl
  | cons kv rest ih =>
    simp only [List.map_cons, List.mem_cons] at hk
    push_neg at hk
    rw [List.foldl_cons, ih _ hk.2]
    simp only [Function.update]
    rw [dif_neg hk.1]

omit [DecidableEq Expr] in
theorem enable_passes_foldl_cb_mem (passes : List (Kind × List Rule))
    (acc : Engine Expr Kind Rule) (k : Kind) (v : List Rule)
    (hnd : (passes.map Prod.fst).Nodup) (hmem : (k, v) ∈ passes) :
    (passes.foldl
      (fun acc kv =>
        { acc with
          expr_simp_cb := Function.update acc.expr_simp_cb kv.1
            (fast_unify (acc.expr_simp_cb kv.1 ++ kv.2)) })
      acc).expr_simp_cb k = fast_unify (acc.expr_simp_cb k ++ v) := by
  induction passes generalizing acc with
  | nil => exact absurd hmem (List.not_mem_nil _)
  | cons kv rest ih =>
    rw [List.map_cons, List.nodup_cons] at hnd
    rw [List.foldl_cons]
    rcases List.mem_cons.mp hmem with heq | hrest
    · subst heq
      rw [enable_passes_foldl_cb_notmem rest _ k (by simpa using hnd.1)]
      simp [Function.update]
    · have hne : kv.1 ≠ k := by
        intro hc
        apply hnd.1
        rw [hc]
        exact List.mem_map.mpr ⟨(k, v), hrest, rfl⟩
      rw [ih _ hnd.2 hrest]
      simp only [Function.update]
      rw [dif_neg hne.symm]

omit [DecidableEq Expr] in
/-- C6: stable unification.  Under a pass dict with pairwise-distinct keys:
for each registered kind the new rule list is the unification (first
occurrence kept, later duplicates of the same callback identity dropped,
order otherwise preserved — it is a duplicate-free sublist of the
concatenation with the very members of the concatenation) of the existing
list with the new list; unregistered kinds are untouched; and enabling the
same pass set twice yields, per kind, exactly the same rule list as
enabling it once. -/
theorem c6_stable_unification (eng : Engine Expr Kind Rule)
    (passes : List (Kind × List Rule)) (hnd : (passes.map Prod.fst).Nodup) :
    (∀ kv ∈ passes,
      (enable_passes eng passes).expr_simp_cb kv.1 =
          fast_unify (eng.expr_simp_cb kv.1 ++ kv.2) ∧
        ((enable_passes eng passes).expr_simp_cb kv.1).Nodup ∧
        List.Sublist ((enable_passes eng passes).expr_simp_cb kv.1)
          (eng.expr_simp_cb kv.1 ++ kv.2) ∧
        (∀ x, x ∈ (enable_passes eng passes).expr_simp_cb kv.1 ↔
          x ∈ eng.expr_simp_cb kv.1 ++ kv.2)) ∧
    (∀ k, k ∉ passes.map Prod.fst →
      (enable_passes eng passes).expr_simp_cb k = eng.expr_simp_cb k) ∧
    (∀ k, (enable_passes (enable_passes eng passes) passes).expr_simp_cb k =
      (enable_passes eng passes).expr_simp_cb k) := by
  refine ⟨?_, ?_, ?_⟩
  · rintro ⟨k, v⟩ hmem
    have h1 : (enable_passes eng passes).expr_simp_cb k =
        fast_unify (eng.expr_simp_cb k ++ v) :=
      enable_passes_foldl_cb_mem passes _ k v hnd hmem
    refine ⟨h1, ?_, ?_, ?_⟩
    · rw [h1]; exact fast_unify_nodup _
    · rw [h1]; exact fast_unify_sublist _
    · intro x; rw [h1]; exact mem_fast_unify _ x
  · intro k hk
    exact enable_passes_foldl_cb_notmem passes _ k hk
  · intro k
    by_cases hk : k ∈ passes.map Prod.fst
    · obtain ⟨kv, hkv, hfst⟩ := List.mem_map.mp hk
      obtain ⟨k0, v⟩ := kv
      simp only at hfst
      subst hfst
      have h1 : (enable_passes eng passes).expr_simp_cb k0 =
          fast_unify (eng.expr_simp_cb k0 ++ v) :=
        enable_passes_foldl_cb_mem passes _ k0 v hnd hkv
      have h2 : (enable_passes (enable_passes eng passes) passes).expr_simp_cb k0 =
          fast_unify ((enable_passes eng passes).expr_simp_cb k0 ++ v) :=
        enable_passes_foldl_cb_mem passes _ k0 v hnd hkv
      rw [h2, h1]
      exact fast_unify_append_absorb _ _ (fast_unify_nodup _)
        (fun x hx => (mem_fast_unify _ x).mpr (List.mem_append_right _ hx))
    · have h1 : (enable_passes eng passes).expr_simp_cb k = eng.expr_simp_cb k :=
        enable_passes_foldl_cb_notmem passes _ k hk
      have h2 : (enable_passes (enable_passes eng passes) passes).expr_simp_cb k =
          (enable_passes eng passes).expr_simp_cb k :=
        enable_passes_foldl_cb_notmem passes _ k hk
      rw [h2]

end Engine

section HeapModel

variable [DecidableEq Rule]

/-- Python rule lists are heap objects; a heap is the sequence of allocated
lists and a reference is an index into it.  Dereferencing an unallocated
reference yields the empty list. -/
def getL (h : List (List Rule)) (r : Nat) : List Rule := h.getD r []

/-- Heap-level engine: `expr_simp_cb` maps a node class to the reference of
its rule-list object (none when the class is not registered). -/
structure EngineH (Kind : Type) where
  cbref : Kind → Option Nat

/-- One iteration of the `enable_passes` merge loop at heap level:
`self.expr_simp_cb[k] = fast_unify(self.expr_simp_cb.get(k, []) + v)`.
Both the list concatenation and `fast_unify` allocate fresh lists; the only
writes are the allocation and the engine's own dict entry. -/
def enable_passesH_step (acc : EngineH Kind × List (List Rule)) (kv : Kind × Nat) :
    EngineH Kind × List (List Rule) :=
  (⟨Function.update acc.1.cbref kv.1 (some acc.2.length)⟩,
    acc.2 ++ [fast_unify
      ((match acc.1.cbref kv.1 with
        | some r => getL acc.2 r
        | none => []) ++ getL acc.2 kv.2)])

/-- `enable_passes` at heap level: `passes` is the argument dict, mapping
each class to the reference of the caller-owned rule list (for the named
pass sets, a list of the process-wide constant). -/
def enable_passesH (eng : EngineH Kind) (h : List (List Rule))
    (passes : List (Kind × Nat)) : EngineH Kind × List (List Rule) :=
  passes.foldl enable_passesH_step (eng, h)

theorem enable_passesH_extends (passes : List (Kind × Nat))
    (eng : EngineH Kind) (h : List (List Rule)) :
    ∃ ext, (enable_passesH eng h passes).2 = h ++ ext := by
  induction passes generalizing eng h with
  | nil => exact ⟨[], by simp [enable_passesH]⟩
  | cons kv rest ih =>
    obtain ⟨ext, hext⟩ := ih (enable_passesH_step (eng, h) kv).1
      (enable_passesH_step (eng, h) kv).2
    refine ⟨(match eng.cbref kv.1 with
        | some r => fast_unify (getL h r ++ getL h kv.2)
        | none => fast_unify ([] ++ getL h kv.2)) :: ext, ?_⟩
    rw [enable_passesH, List.foldl_cons]
    show (enable_passesH (enable_passesH_step (eng, h) kv).1
      (enable_passesH_step (eng, h) kv).2 rest).2 = _
    rw [hext]
    show (enable_passesH_step (eng, h) kv).2 ++ ext = _
    cases hr : eng.cbref kv.1 with
    | none => simp [enable_passesH_step, hr]
    | some r0 => simp [enable_passesH_step, hr]

/-- C9: `enable_passes` never mutates the pass table passed as its
argument.  At heap level the call only allocates fresh lists (plain `+` on
lists and `fast_unify` both build new objects) and rebinds the engine's own
dict entries, so every list object existing before the call — in
particular every per-kind rule list of the argument pass table, such as the
process-wide named pass sets — dereferences unchanged afterwards. -/
theorem c9_enable_passes_frame (eng : EngineH Kind) (h : List (List Rule))
    (passes : List (Kind × Nat)) (i : Nat) (hi : i < h.length) :
    getL (enable_passesH eng h passes).2 i = getL h i := by
  obtain ⟨ext, hext⟩ := enable_passesH_extends passes eng h
  rw [hext]
  unfold getL
  rw [List.getD_eq_getElem?_getD, List.getD_eq_getElem?_getD,
    List.getElem?_append_left hi]

end HeapModel

/-- Concrete instantiation exercising the fixpoint loop on childless nodes:
two node values (`Bool`), one class, `canonize` flips the node and the one
registered callback flips it back. -/
def canonB : Bool → Bool := fun b => !b

/-- The single callback of the Bool model: flip the node. -/
def runB : Nat → Bool → Bool := fun _ b => !b

/-- All Bool nodes have the same class. -/
def kindB : Bool → Unit := fun _ => ()

/-- Pass table of the Bool model: callback 0 registered for the class. -/
def cbB : Unit → List Nat := fun _ => [0]

/-- Modelled from the spec: `Expr.visit` lives in
miasm/expression/expression.py, which is not among these sources; per the
spec the bottom-up visit replaces each child not already cache-stable by
its simplified form, and nodes of this model have no children, so the
visit returns the node unchanged. -/
def visitB : (SimpSt Bool → Bool → Option (Bool × SimpSt Bool)) →
    (SimpSt Bool → Bool → Bool) → SimpSt Bool → Bool → Option (Bool × SimpSt Bool) :=
  fun _ _ σ e => some (e, σ)

/-- `expr_simp` of the Bool model. -/
def expr_simpB : Nat → SimpSt Bool → Bool → Option (Bool × SimpSt Bool) :=
  expr_simpF kindB runB cbB canonB visitB

/-- Expression nodes with at most one child, to exercise the recursive
descent of the fixpoint loop. -/
inductive CExpr where
  | leaf : Nat → CExpr
  | node : Nat → CExpr → CExpr
deriving DecidableEq, Repr

/-- The two node classes of the `CExpr` model. -/
inductive CKind where
  | kleaf : CKind
  | knode : CKind
deriving DecidableEq, Repr

/-- Class of a `CExpr` node. -/
def kindC : CExpr → CKind
  | .leaf _ => .kleaf
  | .node _ _ => .knode

/-- Callback 0 rewrites `leaf 0` to `leaf 1`; callback 1 rewrites a node
tagged 0 to the same node tagged 1; anything else is returned unchanged. -/
def runC : Nat → CExpr → CExpr
  | 0, .leaf 0 => .leaf 1
  | 1, .node 0 c => .node 1 c
  | _, e => e

/-- Pass table of the `CExpr` model. -/
def cbC : CKind → List Nat
  | .kleaf => [0]
  | .knode => [1]

/-- Canonicalization of the `CExpr` model: already canonical. -/
def canonC : CExpr → CExpr := fun e => e

/-- Modelled from the spec: the bottom-up visit of
miasm/expression/expression.py (not among these sources) replaces each
child for which the test holds (not already cache-stable) by the result of
the per-node callback, threading the engine state, and rebuilds the node;
a node with no child to replace is returned unchanged. -/
def visitC : (SimpSt CExpr → CExpr → Option (CExpr × SimpSt CExpr)) →
    (SimpSt CExpr → CExpr → Bool) → SimpSt CExpr → CExpr → Option (CExpr × SimpSt CExpr)
  | _, _, σ, .leaf n => some (.leaf n, σ)
  | cb2, test, σ, .node t c =>
    if test σ c then
      match cb2 σ c with
      | none => none
      | some (c2, σ2) => some (.node t c2, σ2)
    else some (.node t c, σ)

/-- `expr_simp` of the `CExpr` model. -/
def expr_simpM2 : Nat → SimpSt CExpr → CExpr → Option (CExpr × SimpSt CExpr) :=
  expr_simpF kindC runC cbC canonC visitC

/-- The while-loop of `expr_simp` in the `CExpr` model. -/
def simpLoopM2 : Nat → SimpSt CExpr → CExpr → Option (CExpr × SimpSt CExpr) :=
  simpLoopF kindC runC cbC canonC visitC

/-- `expr_simp_wrapper` of the `CExpr` model. -/
def wrapM2 : Nat → SimpSt CExpr → CExpr → Option (CExpr × SimpSt CExpr) :=
  wrapF kindC runC cbC canonC visitC

/-- C1 is refuted by the Bool model: starting from `false`
(not canonical: `canonize false = true`), the loop exits in its very first
iteration returning `false`, because the rewrite result
`apply_simp(canonize(false)) = false` equals the pre-canonicalization node
`false` — even though it does NOT equal the canonical node
`canonize(false) = true`.  So the loop does not exit "exactly when
apply_simp(canonize(x)) == canonize(x)": it exits although that condition
is false here. -/
theorem c1_counterexample :
    expr_simpB 1 ⟨[], 0, 0⟩ false = some (false, ⟨[false], 1, 1⟩) ∧
    apply_simp kindB runB cbB (canonB false) ≠ canonB false := by
  constructor
  · decide
  · decide

/-- C1 (amended) witness: the Bool model exits the loop at once on input
`false` since the rewrite result equals the iteration's input node. -/
theorem c1_loop_exit_amended_witness :
    expr_simpB 1 ⟨[], 0, 0⟩ false = some (false, ⟨[false], 1, 1⟩) :=
  (c1_loop_exit_amended kindB runB cbB canonB visitB ⟨[], 0, 0⟩ false false
      ⟨[false], 1, 1⟩ (by decide)).mpr ⟨by decide, rfl, by decide⟩

/-- C2 is refuted by the `CExpr` model: on input `node 0 (leaf 0)` the
first iteration's rewrite produces the changed node `node 1 (leaf 0)`
(second conjunct), yet that pre-recursion node is nowhere in the final
memoization cache (third conjunct): the engine recorded only the
post-recursion node `node 1 (leaf 1)` (and the child's fixpoint
`leaf 1`). -/
theorem c2_counterexample :
    expr_simpM2 4 ⟨[], 0, 0⟩ (.node 0 (.leaf 0)) =
      some (.node 1 (.leaf 1), ⟨[.node 1 (.leaf 1), .leaf 1], 4, 4⟩) ∧
    apply_simpC kindC runC cbC (canonC (.node 0 (.leaf 0))) = (.node 1 (.leaf 0), 1) ∧
    (CExpr.node 1 (CExpr.leaf 0)) ∉
      ([CExpr.node 1 (CExpr.leaf 1), CExpr.leaf 1] : List CExpr) := by
  refine ⟨by decide, by decide, by decide⟩

/-- C2 (amended) witness: in the `CExpr` model's change-iteration the
wrapper's result `node 1 (leaf 1)` is recorded and the loop continues with
it. -/
theorem c2_records_post_recursion_amended_witness :
    expr_simpM2 4 ⟨[], 0, 0⟩ (.node 0 (.leaf 0)) =
      simpLoopM2 3 ⟨[.node 1 (.leaf 1), .leaf 1], 3, 3⟩ (.node 1 (.leaf 1)) :=
  c2_records_post_recursion_amended kindC runC cbC canonC visitC 3
    ⟨[], 0, 0⟩ ⟨[.leaf 1], 3, 3⟩ (.node 0 (.leaf 0)) (.node 1 (.leaf 1))
    (by decide) (by decide) (by decide)

/-- C4 witness on the Bool model: after `expr_simp` returns `false`, the
result is cached and re-simplifying it is a pure cache hit with the state
(counters included) unchanged. -/
theorem c4_cache_soundness_witness :
    false ∈ (⟨[false], 1, 1⟩ : SimpSt Bool).cache ∧
    expr_simpB 1 ⟨[false], 1, 1⟩ false = some (false, ⟨[false], 1, 1⟩) :=
  c4_cache_soundness kindB runB cbB canonB visitB 1 0 ⟨[], 0, 0⟩
    ⟨[false], 1, 1⟩ false false (by decide)

/-- C7 witness on the `CExpr` model: re-simplifying the returned node
yields it again, unchanged. -/
theorem c7_simplify_idempotent_witness :
    expr_simpM2 1 ⟨[CExpr.node 1 (CExpr.leaf 1), CExpr.leaf 1], 4, 4⟩
        (CExpr.node 1 (CExpr.leaf 1)) =
      some (CExpr.node 1 (CExpr.leaf 1),
        ⟨[CExpr.node 1 (CExpr.leaf 1), CExpr.leaf 1], 4, 4⟩) :=
  c7_simplify_idempotent kindC runC cbC canonC visitC 4 0 ⟨[], 0, 0⟩
    ⟨[CExpr.node 1 (CExpr.leaf 1), CExpr.leaf 1], 4, 4⟩
    (CExpr.node 0 (CExpr.leaf 0)) (CExpr.node 1 (CExpr.leaf 1)) (by decide)

/-- Node classes of the dispatch model: `sub` plays a Python subclass of
`base`. -/
inductive K10 where
  | base : K10
  | sub : K10
deriving DecidableEq, Repr

/-- Nodes of the dispatch model: `b` nodes have exact class `base`, `s`
nodes have exact class `sub`. -/
inductive E10 where
  | b : Nat → E10
  | s : Nat → E10
deriving DecidableEq, Repr

/-- Exact runtime class of an `E10` node. -/
def kind10 : E10 → K10
  | .b _ => .base
  | .s _ => .sub

/-- The subclass relation of the dispatch model: `sub` is a subclass of
`base` (reflexive otherwise).  The engine's dispatch and kind-change test
never consult this relation. -/
def subclassOf : K10 → K10 → Bool := fun a b =>
  decide (a = b) || (decide (a = K10.sub) && decide (b = K10.base))

/-- Callback 1 rewrites a `base` node into the `sub` node with the same
payload (a class change into a subclass); callback 2 rewrites anything to
`b 99` and would be detectably wrong if it still ran after the change. -/
def run10 : Nat → E10 → E10
  | 1, .b n => .s n
  | 2, _ => .b 99
  | _, e => e

/-- Pass table of the dispatch model: rules registered for `base` only;
the subclass `sub` has no entry of its own. -/
def cb10 : K10 → List Nat
  | .base => [1, 2]
  | .sub => []

omit [DecidableEq Expr] in
/-- C10: dispatch is by the exact runtime class.  Generically, a node whose
exact class has no entry gets back unchanged with zero callbacks invoked;
in the concrete model, `sub` is a subclass of the registered class `base`
yet `s` nodes are untouched (no inherited dispatch), and a callback that
turns a `base` node into a `sub` node stops the fold at once (class
identity comparison, not subtyping), so callback 2 never runs. -/
theorem c10_exact_class_dispatch :
    (∀ e2 : Expr, cb (kind e2) = [] → apply_simpC kind runRule cb e2 = (e2, 0)) ∧
    subclassOf K10.sub K10.base = true ∧
    cb10 K10.base ≠ [] ∧
    (∀ n, apply_simpC kind10 run10 cb10 (E10.s n) = (E10.s n, 0)) ∧
    apply_simpC kind10 run10 cb10 (E10.b 5) = (E10.s 5, 1) := by
  refine ⟨?_, by decide, by decide, ?_, by decide⟩
  · intro e2 h
    unfold apply_simpC
    rw [h]
    rfl
  · intro n
    rfl

/-- C10 witness: an `s` node (exact class `sub`, unregistered) is returned
unchanged with zero callbacks invoked. -/
theorem c10_exact_class_dispatch_witness :
    apply_simpC kind10 run10 cb10 (E10.s 3) = (E10.s 3, 0) :=
  (c10_exact_class_dispatch kind10 run10 cb10).1 (E10.s 3) rfl

/-- C3 witness on the dispatch model: a class-changing callback returns
immediately with exactly one invocation, and the empty list returns the
node with zero invocations. -/
theorem c3_apply_simp_fold_witness :
    apply_goC kind10 run10 K10.base [1, 2] (E10.b 5) = (E10.s 5, 1) ∧
    apply_goC kind10 run10 K10.base [] (E10.b 5) = (E10.b 5, 0) := by
  have h := c3_apply_simp_fold kind10 run10 cb10 K10.base 1 [2] (E10.b 5)
  exact ⟨h.2.2.1 (by decide), h.1⟩

/-- C8 witness on the Bool model: tracing on/off gives the same
`apply_simp` value, which also matches the untraced one, and equal tables
give equal engine results. -/
theorem c8_determinism_witness :
    (apply_simpD kindB runB cbB true false).1 = (apply_simpD kindB runB cbB false false).1 ∧
    (apply_simpD kindB runB cbB true false).1 = apply_simp kindB runB cbB false ∧
    expr_simpB 2 ⟨[], 0, 0⟩ true = expr_simpB 2 ⟨[], 0, 0⟩ true :=
  c8_determinism kindB runB canonB visitB cbB cbB (fun _ => rfl) true false
    false 2 ⟨[], 0, 0⟩ true

/-- The empty engine of the `enable_passes` witness model. -/
def engC6 : Engine Bool Bool Nat := ⟨fun _ => [], []⟩

/-- C6 witness: enabling a pass list with a duplicated callback identity
gives the unified (first-occurrence, duplicate-free) list, and enabling it
twice gives the same list as enabling it once. -/
theorem c6_stable_unification_witness :
    (enable_passes engC6 [(true, [5, 6, 5])]).expr_simp_cb true = [5, 6] ∧
    (enable_passes (enable_passes engC6 [(true, [5, 6, 5])])
        [(true, [5, 6, 5])]).expr_simp_cb true =
      (enable_passes engC6 [(true, [5, 6, 5])]).expr_simp_cb true := by
  have h := c6_stable_unification engC6 [(true, [5, 6, 5])] (by decide)
  refine ⟨?_, h.2.2 true⟩
  have h1 := (h.1 (true, [5, 6, 5]) (by decide)).1
  rw [h1]
  decide

/-- C9 witness: merging a pass table referencing heap cell 0 leaves cell 0
dereferencing to its original list. -/
theorem c9_enable_passes_frame_witness :
    getL (enable_passesH (EngineH.mk (fun _ : Bool => none)) [[7, 8]] [(true, 0)]).2 0
      = [7, 8] := by
  have h := c9_enable_passes_frame (EngineH.mk (fun _ : Bool => none))
    [[7, 8]] [(true, 0)] 0 (by decide)
  rw [h]
  decide

end MiasmSimp
